import Mathlib

/-!
Verification development for the probability-distribution core
(`src/distributions.rs`): weighted coin, bounded integer draw, repeat
controller, alias-method discrete sampler and signed integer draw.

Modelling conventions, fixed once for the whole file:

* The bit source (`DataSource`) is an external collaborator; per the interface
  description it is a sequential cursor supplying, on each `bits(n)` request,
  an unsigned integer of width `n`, or failing.  We model it as the list of
  raw values handed to successive reads: each read consumes one list element
  and masks it to the requested width (`% 2 ^ n`); an empty list means the
  next read fails.  One element therefore corresponds to one read of whatever
  width was requested (byte layout of the underlying buffer is owned by the
  source, not by this module).
* `Result<T, FailedDraw>` becomes `Option`; `none` is the failed draw.
  `&mut` state (the source cursor, the `Repeat` struct) is threaded
  explicitly: functions return the updated state alongside the result.
* Rust `f64`/`f32` values are modelled by `F`: either NaN or an exact
  rational.  Arithmetic is exact where IEEE arithmetic would round; every
  concrete probability appearing in this development (0, 1/2, 1, small
  integer ratios) is computed exactly by `f64`/`f32` as well, and the
  structural theorems proved below do not depend on rounding, only on which
  comparison branch is taken.  `0.0 / 0.0` is NaN; division of a nonzero
  value by zero is mapped to NaN as well (IEEE would give an infinity, but
  that case cannot arise for the non-negative weight vectors considered
  here: a zero total forces every numerator to zero).  All comparisons with
  NaN are false, as in IEEE.
* `u64` arithmetic that can overflow is computed with the release-mode
  wrapping semantics (`% 2 ^ 64`); the one place this happens
  (`u64::max_value() - truthy + 1` with `truthy = 0` in `weighted`) is an
  arithmetic overflow, i.e. a panic under debug assertions.
-/

attribute [local semireducible] Rat.add Rat.mul Rat.sub Rat.inv

namespace Distributions

/-- The external bit source: the sequence of raw values supplied to
successive reads.  Each `bits` call consumes one element. -/
abbrev DataSource := List Nat

/-- `source.bits(n)`: read `n` bits as an unsigned integer (the supplied
value masked to width `n`), advancing the cursor; fails when the source is
exhausted. -/
def bits (source : DataSource) (n : Nat) : Option (Nat × DataSource) :=
  match source with
  | [] => none
  | v :: rest => some (v % 2 ^ n, rest)

/-- Model of an IEEE float (`f64`/`f32`): NaN or an exact rational value. -/
inductive F where
  | nan : F
  | val : ℚ → F
deriving DecidableEq

/-- Float addition (NaN-propagating, exact otherwise). -/
def F.add : F → F → F
  | F.val a, F.val b => F.val (a + b)
  | _, _ => F.nan

/-- Float subtraction (NaN-propagating, exact otherwise). -/
def F.sub : F → F → F
  | F.val a, F.val b => F.val (a - b)
  | _, _ => F.nan

/-- Float multiplication (NaN-propagating, exact otherwise). -/
def F.mul : F → F → F
  | F.val a, F.val b => F.val (a * b)
  | _, _ => F.nan

/-- Float division: `0.0 / 0.0` is NaN; division by zero is mapped to NaN
(see the file comment: the nonzero-over-zero case, an IEEE infinity, cannot
arise for the inputs considered here). -/
def F.div : F → F → F
  | F.val a, F.val b => if b = 0 then F.nan else F.val (a / b)
  | _, _ => F.nan

/-- `self == other` on floats: false whenever either side is NaN. -/
def F.beq : F → F → Bool
  | F.val a, F.val b => decide (a = b)
  | _, _ => false

/-- `self < other` on floats: false whenever either side is NaN. -/
def F.blt : F → F → Bool
  | F.val a, F.val b => decide (a < b)
  | _, _ => false

/-- `self > other` on floats: false whenever either side is NaN. -/
def F.bgt : F → F → Bool
  | F.val a, F.val b => decide (b < a)
  | _, _ => false

/-- `(probability * (u64::max_value() as f64 + 1.0)).floor() as u64`.
`u64::max_value() as f64` rounds to `2 ^ 64` (nearest-even), and adding
`1.0` leaves `2 ^ 64`, so the multiplier is exactly `2 ^ 64`; the product
and floor are modelled exactly over `ℚ` (exact in `f64` at every
probability used in this development).  The `as u64` cast saturates:
values above `u64::MAX` give `u64::MAX`, negative values give `0`, NaN
gives `0`. -/
def truthyOf : F → Nat
  | F.nan => 0
  | F.val p => (min (⌊p * (2 : ℚ) ^ 64⌋) ((2 : ℤ) ^ 64 - 1)).toNat

/-- `weighted(source, probability)` from the source: compute `truthy`,
draw one 64-bit value `probe`, return
`probe >= u64::max_value() - truthy + 1` (u64 wrapping arithmetic: the
`+ 1` overflows exactly when `truthy = 0`). -/
def weighted (source : DataSource) (probability : F) : Option (Bool × DataSource) :=
  match bits source 64 with
  | none => none
  | some (probe, s) =>
      some (decide ((2 ^ 64 - 1 - truthyOf probability + 1) % 2 ^ 64 ≤ probe), s)

/-- `64 - max.leading_zeros()` for a `u64` value `max`: the minimal number
of bits needed to represent `max` (0 for `max = 0`).  Computed by scanning
the 64 candidate bit positions, which keeps the definition structurally
recursive (kernel-evaluable). -/
def bitLength (n : Nat) : Nat :=
  (List.range 64).foldl (fun acc k => if 2 ^ k ≤ n then k + 1 else acc) 0

/-- The rejection loop of `bounded_int`: read `bitlength` bits as `probe`;
return it if `probe <= max`, otherwise discard and read again.  Each
iteration consumes one read; the loop fails when a read fails. -/
def boundedIntLoop (max bitlength : Nat) : DataSource → Option (Nat × DataSource)
  | [] => none
  | v :: rest =>
      match bits (v :: rest) bitlength with
      | none => none
      | some (probe, s) =>
          if probe ≤ max then some (probe, s) else boundedIntLoop max bitlength rest

/-- `bounded_int(source, max)` from the source: short-circuit to `0` with no
read when the bit length of `max` is `0`, otherwise run the rejection
loop. -/
def bounded_int (source : DataSource) (max : Nat) : Option (Nat × DataSource) :=
  let bitlength := bitLength max
  if bitlength = 0 then some (0, source)
  else boundedIntLoop max bitlength source

/-- The `Repeat` struct: fixed bounds, derived continuation probability,
and the mutable `current_count`. -/
structure Repeat where
  min_count : Nat
  max_count : Nat
  p_continue : F
  current_count : Nat
deriving DecidableEq

/-- `Repeat::new(min_count, max_count, expected_count)`:
`p_continue = 1.0 - 1.0 / (1.0 + expected_count)`, `current_count = 0`. -/
def Repeat.new (min_count max_count : Nat) (expected_count : F) : Repeat :=
  { min_count := min_count
    max_count := max_count
    p_continue := F.sub (F.val 1) (F.div (F.val 1) (F.add (F.val 1) expected_count))
    current_count := 0 }

/-- `Repeat::draw_until(source, value)`: loop `weighted` draws at
`p_continue` until one equals `value`.  Returns `(some (), s)` on success
with the advanced source `s`, and `(none, s)` when a read fails (the
consumed reads stay consumed).  The recursive call is written on `rest`,
which is the advanced source the matched `weighted` call returns. -/
def Repeat.draw_until (r : Repeat) (value : Bool) : DataSource → Option Unit × DataSource
  | [] => (none, [])
  | v :: rest =>
      match weighted (v :: rest) r.p_continue with
      | none => (none, v :: rest)
      | some (d, s) => if d = value then (some (), s) else r.draw_until value rest

/-- `Repeat::should_continue(source)` from the source, with the `&mut self`
and `&mut source` state returned explicitly: result `(outcome, self, source)`
where `outcome = none` is the propagated draw failure.  Note the
below-minimum branch `return Ok(true)` exits before the
`match result { Ok(true) => self.current_count += 1, _ => () }`, so it does
not increment `current_count` (this is what the source does). -/
def Repeat.should_continue (r : Repeat) (source : DataSource) :
    Option Bool × Repeat × DataSource :=
  if r.current_count < r.min_count then
    match r.draw_until true source with
    | (none, s) => (none, r, s)
    | (some _, s) => (some true, r, s)
  else if r.max_count ≤ r.current_count then
    match r.draw_until false source with
    | (none, s) => (none, r, s)
    | (some _, s) => (some false, r, s)
  else
    match weighted source r.p_continue with
    | none => (none, r, source)
    | some (d, s) =>
        (some d, if d then { r with current_count := r.current_count + 1 } else r, s)

/-- One row of the alias table (`SamplerEntry`). -/
structure SamplerEntry where
  primary : Nat
  alternate : Nat
  use_alternate : F
deriving DecidableEq

/-- `SamplerEntry::single(i)`: a certain entry. -/
def SamplerEntry.single (i : Nat) : SamplerEntry :=
  { primary := i, alternate := i, use_alternate := F.val 0 }

/-- The `Ord` implementation on `SamplerEntry` as a boolean `≤`:
`primary.cmp(other.primary).then(alternate.cmp(other.alternate))`, i.e.
lexicographic on `(primary, alternate)`, ignoring `use_alternate`. -/
def SamplerEntry.le (a b : SamplerEntry) : Bool :=
  decide (a.primary < b.primary) ||
    (decide (a.primary = b.primary) && decide (a.alternate ≤ b.alternate))

/-- Insert into a `BinaryHeap<Reverse<usize>>` modelled as an ascending
list (pops yield the smallest index first, as the `Reverse` min-heap
does). -/
def heapPush (i : Nat) : List Nat → List Nat
  | [] => [i]
  | j :: rest => if i ≤ j then i :: j :: rest else j :: heapPush i rest

/-- The classification loop of `Sampler::new`: for each `(i, scaled)` pair
(in index order), emit a certain entry when `scaled == 1.0`, push `i` into
`large` when `scaled > 1.0`, otherwise `assert!(scaled < 1.0)` (which NaN
fails — modelled as `none`) and push `i` into `small`. -/
def initTables : List (Nat × F) → Option (List SamplerEntry × List Nat × List Nat)
  | [] => some ([], [], [])
  | (i, scaled) :: rest =>
      match initTables rest with
      | none => none
      | some (table, small, large) =>
          if scaled.beq (F.val 1) then some (SamplerEntry.single i :: table, small, large)
          else if scaled.bgt (F.val 1) then some (table, small, heapPush i large)
          else if scaled.blt (F.val 1) then some (table, heapPush i small, large)
          else none

/-- The pairing loop of `Sampler::new` (`while !(small.is_empty() ||
large.is_empty())`).  The `fuel` parameter is an upper bound on the number
of iterations (each iteration removes at least one index from
`small ++ large`, see `aliasLoop_exit`); running out of fuel exits the loop
with the current state, and `Sampler.new` supplies enough fuel that this
exit coincides with a heap becoming empty.  The three `none` results are the
three `assert!`s of the loop body. -/
def aliasLoop (fuel : Nat) (table : List SamplerEntry) (scaled : List F)
    (small large : List Nat) :
    Option (List SamplerEntry × List F × List Nat × List Nat) :=
  match fuel, small, large with
  | 0, small, large => some (table, scaled, small, large)
  | _ + 1, [], large => some (table, scaled, [], large)
  | _ + 1, lo :: small, [] => some (table, scaled, lo :: small, [])
  | fuel + 1, lo :: small, hi :: large =>
      if lo = hi then none
      else if ¬ ((scaled.getD hi F.nan).bgt (F.val 1)) then none
      else if ¬ ((scaled.getD lo F.nan).blt (F.val 1)) then none
      else
        let scaled2 :=
          scaled.set hi (F.sub (F.add (scaled.getD hi F.nan) (scaled.getD lo F.nan)) (F.val 1))
        let table2 := table ++
          [{ primary := lo, alternate := hi,
             use_alternate := F.sub (F.val 1) (scaled2.getD lo F.nan) }]
        if (scaled2.getD hi F.nan).blt (F.val 1) then
          aliasLoop fuel table2 scaled2 (heapPush hi small) large
        else if (scaled2.getD hi F.nan).bgt (F.val 1) then
          aliasLoop fuel table2 scaled2 small (heapPush hi large)
        else
          aliasLoop fuel (table2 ++ [SamplerEntry.single hi]) scaled2 small large

/-- The alias table. -/
structure Sampler where
  table : List SamplerEntry
deriving DecidableEq

/-- `Sampler::new(weights)` from the source: classify the scaled weights,
run the pairing loop, emit the leftovers of both heaps as certain entries,
normalize every entry to `primary ≤ alternate` (flipping `use_alternate`
on a swap), and sort by `(primary, alternate)`.  Panics (assertion
failures, `none` here): empty weights, the classification assert on NaN,
the three loop asserts, empty table. -/
def Sampler.new (weights : List F) : Option Sampler :=
  if weights.length = 0 then none
  else
    let total : F := weights.foldl F.add (F.val 0)
    let n : F := F.val (weights.length : ℚ)
    let scaled := weights.map fun w => F.div (F.mul n w) total
    match initTables scaled.enum with
    | none => none
    | some (table, small, large) =>
        match aliasLoop (small.length + large.length) table scaled small large with
        | none => none
        | some (table2, _, small2, large2) =>
            let table3 :=
              table2 ++ small2.map SamplerEntry.single ++ large2.map SamplerEntry.single
            let table4 := table3.map fun e =>
              if e.alternate < e.primary then
                { primary := e.alternate, alternate := e.primary,
                  use_alternate := F.sub (F.val 1) e.use_alternate }
              else e
            let table5 := table4.insertionSort fun a b => SamplerEntry.le a b = true
            if table5.length = 0 then none else some { table := table5 }

/-- `Sampler::sample(source)`: a bounded-integer draw over the table, then
one weighted draw at the selected entry's `use_alternate` (the `f32 → f64`
cast is exact); return `alternate` on `true`, else `primary`. -/
def Sampler.sample (self : Sampler) (source : DataSource) : Option (Nat × DataSource) :=
  if self.table.length = 0 then none
  else
    match bounded_int source (self.table.length - 1) with
    | none => none
    | some (i, s1) =>
        let entry := self.table.getD i (SamplerEntry.single 0)
        match weighted s1 entry.use_alternate with
        | none => none
        | some (use_alt, s2) =>
            some (if use_alt then entry.alternate else entry.primary, s2)

/-- `x as i64` for a `u64` value `x`: two's-complement reinterpretation. -/
def toI64 (x : Nat) : Int :=
  if x < 2 ^ 63 then (x : Int) else (x : Int) - 2 ^ 64

/-- `i64` negation with release-mode wrapping (`- i64::MIN` wraps to
`i64::MIN`; a panic under debug assertions). -/
def negI64 (x : Int) : Int :=
  if x = -(2 ^ 63) then -(2 ^ 63) else -x

/-- `integer_from_bitlengths(source, bitlengths)` from the source: sample
`bitlength = b + 1`, read that many bits, cast to `i64`, read one sign
bit, negate on a nonzero sign. -/
def integer_from_bitlengths (source : DataSource) (bitlengths : Sampler) :
    Option (Int × DataSource) :=
  match bitlengths.sample source with
  | none => none
  | some (b, s1) =>
      let bitlength := b + 1
      match bits s1 bitlength with
      | none => none
      | some (x, s2) =>
          let base := toI64 x
          match bits s2 1 with
          | none => none
          | some (sign, s3) => some (if 0 < sign then negI64 base else base, s3)

/-- The signed-integer draw as the specification words it: sample a
bit-length index `b` from the sampler, read `b + 1` bits as an unsigned
magnitude, read one further bit as the sign flag, and return the magnitude
negated exactly when the sign bit is nonzero.  Stated from the claim for
comparison with `integer_from_bitlengths`. -/
def signedIntegerClaim (source : DataSource) (bitlengths : Sampler) :
    Option (Int × DataSource) :=
  match bitlengths.sample source with
  | none => none
  | some (b, s1) =>
      match bits s1 (b + 1) with
      | none => none
      | some (mag, s2) =>
          match bits s2 1 with
          | none => none
          | some (sign, s3) =>
              some (if sign ≠ 0 then -(mag : Int) else (mag : Int), s3)

/-- The rejection loop of `bounded_int` with an explicit iteration budget:
`none` means the budget ran out with the loop still running, `some none`
is a propagated draw failure, `some (some _)` a returned value.  Used to
state termination (claim on loop termination): the structural model
`boundedIntLoop` is reached within `source.length + 1` iterations. -/
def boundedIntLoopFuel (max bitlength : Nat) : Nat → DataSource → Option (Option (Nat × DataSource))
  | 0, _ => none
  | fuel + 1, source =>
      match source with
      | [] => some none
      | v :: rest =>
          if v % 2 ^ bitlength ≤ max then some (some (v % 2 ^ bitlength, rest))
          else boundedIntLoopFuel max bitlength fuel rest

/-- The forced-outcome loop of `Repeat::draw_until` with an explicit
iteration budget, with the same reading of the result as
`boundedIntLoopFuel` (`some (some s)` is success with advanced source
`s`). -/
def drawUntilFuel (p : F) (value : Bool) : Nat → DataSource → Option (Option DataSource)
  | 0, _ => none
  | fuel + 1, source =>
      match source with
      | [] => some none
      | v :: rest =>
          if decide ((2 ^ 64 - 1 - truthyOf p + 1) % 2 ^ 64 ≤ v % 2 ^ 64) = value then
            some (some rest)
          else drawUntilFuel p value fuel rest

/-! ### Helper lemmas -/

theorem bits_cons (v : Nat) (rest : DataSource) (n : Nat) :
    bits (v :: rest) n = some (v % 2 ^ n, rest) := rfl

theorem weighted_cons (v : Nat) (rest : DataSource) (p : F) :
    weighted (v :: rest) p =
      some (decide ((2 ^ 64 - 1 - truthyOf p + 1) % 2 ^ 64 ≤ v % 2 ^ 64), rest) := rfl

theorem weighted_nil (p : F) : weighted [] p = none := rfl

theorem bitLength_zero : bitLength 0 = 0 := by decide

theorem boundedIntLoop_le {max bitlength : Nat} :
    ∀ {source : DataSource} {v : Nat} {s' : DataSource},
      boundedIntLoop max bitlength source = some (v, s') → v ≤ max := by
  intro source
  induction source with
  | nil => intro v s' h; simp [boundedIntLoop] at h
  | cons a rest ih =>
      intro v s' h
      rw [boundedIntLoop, bits_cons] at h
      by_cases hle : a % 2 ^ bitlength ≤ max
      · simp [hle] at h
        omega
      · simp [hle] at h
        exact ih h

theorem bounded_int_le {source : DataSource} {max v : Nat} {s' : DataSource}
    (h : bounded_int source max = some (v, s')) : v ≤ max := by
  rw [bounded_int] at h
  by_cases hb : bitLength max = 0
  · simp [hb] at h
    omega
  · simp [hb] at h
    exact boundedIntLoop_le h

theorem heapPush_length (i : Nat) : ∀ l : List Nat, (heapPush i l).length = l.length + 1 := by
  intro l
  induction l with
  | nil => rfl
  | cons j rest ih =>
      rw [heapPush]
      by_cases hij : i ≤ j
      · simp [hij]
      · simp [hij, ih]

theorem initTables_length :
    ∀ (ps : List (Nat × F)) (t : List SamplerEntry) (sm lg : List Nat),
      initTables ps = some (t, sm, lg) →
      t.length + sm.length + lg.length = ps.length := by
  intro ps
  induction ps with
  | nil =>
      intro t sm lg h
      rw [initTables] at h
      simp only [Option.some.injEq, Prod.mk.injEq] at h
      obtain ⟨rfl, rfl, rfl⟩ := h
      rfl
  | cons p rest ih =>
      intro t sm lg h
      obtain ⟨i, sc⟩ := p
      cases hr : initTables rest with
      | none =>
          rw [initTables, hr] at h
          simp at h
      | some tsl =>
          obtain ⟨t', sm', lg'⟩ := tsl
          rw [initTables, hr] at h
          have ihr := ih t' sm' lg' hr
          by_cases h1 : sc.beq (F.val 1)
          · simp [h1] at h
            obtain ⟨ha, hb, hc⟩ := h
            simp [← ha, ← hb, ← hc]
            omega
          · by_cases h2 : sc.bgt (F.val 1)
            · simp [h1, h2] at h
              obtain ⟨ha, hb, hc⟩ := h
              simp [← ha, ← hb, ← hc, heapPush_length]
              omega
            · by_cases h3 : sc.blt (F.val 1)
              · simp [h1, h2, h3] at h
                obtain ⟨ha, hb, hc⟩ := h
                simp [← ha, ← hb, ← hc, heapPush_length]
                omega
              · simp [h1, h2, h3] at h

theorem initTables_certain :
    ∀ (ps : List (Nat × F)) (t : List SamplerEntry) (sm lg : List Nat),
      initTables ps = some (t, sm, lg) →
      ∀ e ∈ t, e.primary = e.alternate → e.use_alternate = F.val 0 := by
  intro ps
  induction ps with
  | nil =>
      intro t sm lg h
      rw [initTables] at h
      simp only [Option.some.injEq, Prod.mk.injEq] at h
      obtain ⟨rfl, rfl, rfl⟩ := h
      simp
  | cons p rest ih =>
      intro t sm lg h
      obtain ⟨i, sc⟩ := p
      cases hr : initTables rest with
      | none =>
          rw [initTables, hr] at h
          simp at h
      | some tsl =>
          obtain ⟨t', sm', lg'⟩ := tsl
          rw [initTables, hr] at h
          have ihr := ih t' sm' lg' hr
          by_cases h1 : sc.beq (F.val 1)
          · simp [h1] at h
            obtain ⟨ha, _, _⟩ := h
            intro e he
            rw [← ha] at he
            rcases List.mem_cons.1 he with rfl | hmem
            · intro _; rfl
            · exact ihr e hmem
          · by_cases h2 : sc.bgt (F.val 1)
            · simp [h1, h2] at h
              obtain ⟨ha, _, _⟩ := h
              exact ha ▸ ihr
            · by_cases h3 : sc.blt (F.val 1)
              · simp [h1, h2, h3] at h
                obtain ⟨ha, _, _⟩ := h
                exact ha ▸ ihr
              · simp [h1, h2, h3] at h

theorem aliasLoop_length :
    ∀ (fuel : Nat) (t : List SamplerEntry) (sc : List F) (sm lg : List Nat)
      (t2 : List SamplerEntry) (sc2 : List F) (sm2 lg2 : List Nat),
      aliasLoop fuel t sc sm lg = some (t2, sc2, sm2, lg2) →
      t2.length + sm2.length + lg2.length = t.length + sm.length + lg.length := by
  intro fuel
  induction fuel with
  | zero =>
      intro t sc sm lg t2 sc2 sm2 lg2 h
      rw [aliasLoop] at h
      simp only [Option.some.injEq, Prod.mk.injEq] at h
      obtain ⟨rfl, rfl, rfl, rfl⟩ := h
      rfl
  | succ f ih =>
      intro t sc sm lg t2 sc2 sm2 lg2 h
      match sm, lg with
      | [], lg =>
          rw [aliasLoop] at h
          simp only [Option.some.injEq, Prod.mk.injEq] at h
          obtain ⟨rfl, rfl, rfl, rfl⟩ := h
          rfl
      | lo :: sm', [] =>
          rw [aliasLoop] at h
          simp only [Option.some.injEq, Prod.mk.injEq] at h
          obtain ⟨rfl, rfl, rfl, rfl⟩ := h
          rfl
      | lo :: sm', hi :: lg' =>
          rw [aliasLoop] at h
          dsimp only [] at h
          split_ifs at h with h1 h2 h3 h4 h5
          · have := ih _ _ _ _ _ _ _ _ h
            simp [heapPush_length] at this ⊢
            omega
          · have := ih _ _ _ _ _ _ _ _ h
            simp [heapPush_length] at this ⊢
            omega
          · have := ih _ _ _ _ _ _ _ _ h
            simp at this ⊢
            omega

theorem aliasLoop_certain :
    ∀ (fuel : Nat) (t : List SamplerEntry) (sc : List F) (sm lg : List Nat)
      (t2 : List SamplerEntry) (sc2 : List F) (sm2 lg2 : List Nat),
      aliasLoop fuel t sc sm lg = some (t2, sc2, sm2, lg2) →
      (∀ e ∈ t, e.primary = e.alternate → e.use_alternate = F.val 0) →
      ∀ e ∈ t2, e.primary = e.alternate → e.use_alternate = F.val 0 := by
  intro fuel
  induction fuel with
  | zero =>
      intro t sc sm lg t2 sc2 sm2 lg2 h hp
      rw [aliasLoop] at h
      simp only [Option.some.injEq, Prod.mk.injEq] at h
      obtain ⟨rfl, rfl, rfl, rfl⟩ := h
      exact hp
  | succ f ih =>
      intro t sc sm lg t2 sc2 sm2 lg2 h hp
      match sm, lg with
      | [], lg =>
          rw [aliasLoop] at h
          simp only [Option.some.injEq, Prod.mk.injEq] at h
          obtain ⟨rfl, rfl, rfl, rfl⟩ := h
          exact hp
      | lo :: sm', [] =>
          rw [aliasLoop] at h
          simp only [Option.some.injEq, Prod.mk.injEq] at h
          obtain ⟨rfl, rfl, rfl, rfl⟩ := h
          exact hp
      | lo :: sm', hi :: lg' =>
          rw [aliasLoop] at h
          dsimp only [] at h
          split_ifs at h with h1 h2 h3 h4 h5
          · refine ih _ _ _ _ _ _ _ _ h ?_
            intro e he
            rcases List.mem_append.1 he with hmem | hmem
            · exact hp e hmem
            · rcases List.mem_singleton.1 hmem with rfl
              intro hpa
              exact absurd hpa h1
          · refine ih _ _ _ _ _ _ _ _ h ?_
            intro e he
            rcases List.mem_append.1 he with hmem | hmem
            · exact hp e hmem
            · rcases List.mem_singleton.1 hmem with rfl
              intro hpa
              exact absurd hpa h1
          · refine ih _ _ _ _ _ _ _ _ h ?_
            intro e he
            rcases List.mem_append.1 he with hmem | hmem
            · rcases List.mem_append.1 hmem with hmem2 | hmem2
              · exact hp e hmem2
              · rcases List.mem_singleton.1 hmem2 with rfl
                intro hpa
                exact absurd hpa h1
            · rcases List.mem_singleton.1 hmem with rfl
              intro _
              rfl

instance : IsTotal SamplerEntry fun a b => SamplerEntry.le a b = true := ⟨by
  intro a b
  simp only [SamplerEntry.le, Bool.or_eq_true, Bool.and_eq_true, decide_eq_true_eq]
  omega⟩

instance : IsTrans SamplerEntry fun a b => SamplerEntry.le a b = true := ⟨by
  intro a b c hab hbc
  simp only [SamplerEntry.le, Bool.or_eq_true, Bool.and_eq_true, decide_eq_true_eq] at hab hbc ⊢
  omega⟩

/-! ### Claims -/

set_option maxRecDepth 40000 in
/-- C1: the claim states that with `min_count = max_count = k` the
controller returns `true` exactly `k` times and then `false`, the
below-minimum branch incrementing `current_count`.  The code's
below-minimum branch does `return Ok(true)` before the increment, so
`current_count` stays `0` forever: with `k = 1`, `expected_count = 1.0`
(`p_continue = 0.5`) and a source whose 64-bit reads are all `2 ^ 63`
(every weighted draw yields `true`), the first call returns `true` without
incrementing and the second call — which the claim requires to return
`false` — returns `true` again. -/
theorem repeat_forced_true_never_increments :
    ((Repeat.new 1 1 (F.val 1)).should_continue [2 ^ 63, 2 ^ 63]).1 = some true ∧
    ((Repeat.new 1 1 (F.val 1)).should_continue [2 ^ 63, 2 ^ 63]).2.1.current_count = 0 ∧
    (((Repeat.new 1 1 (F.val 1)).should_continue [2 ^ 63, 2 ^ 63]).2.1.should_continue
        ((Repeat.new 1 1 (F.val 1)).should_continue [2 ^ 63, 2 ^ 63]).2.2).1 = some true := by
  refine ⟨by decide, by decide, by decide⟩

set_option maxRecDepth 40000 in
/-- C2: the claim states `weighted(source, 0.0) = false` and
`weighted(source, 1.0) = true` on every successful read.  In the code,
`p = 0.0` gives `truthy = 0`, and `u64::max_value() - truthy + 1`
overflows (a debug-build panic), wrapping to `0`, so every probe compares
`≥ 0` and the result is `true`; `p = 1.0` gives `truthy = u64::MAX` by the
saturating cast (the exact `floor(1.0 · 2^64) = 2^64` is not
representable), so the threshold is `1` and probe `0` yields `false`. -/
theorem weighted_boundary_eval :
    weighted [0] (F.val 0) = some (true, []) ∧
    weighted [0] (F.val 1) = some (false, []) ∧
    truthyOf (F.val 0) = 0 ∧
    truthyOf (F.val 1) = 2 ^ 64 - 1 := by
  refine ⟨by decide, by decide, by decide, by decide⟩

/-- C3: every value successfully returned by `bounded_int(source, max)` is
at most `max`, and `bounded_int(source, 0)` returns `0` with the source
untouched (zero reads). -/
theorem bounded_int_in_range (source : DataSource) (max v : Nat) (s' : DataSource) :
    (bounded_int source max = some (v, s') → v ≤ max) ∧
    bounded_int source 0 = some (0, source) := by
  refine ⟨fun h => bounded_int_le h, ?_⟩
  rw [bounded_int]
  simp [bitLength_zero]

/-- Witness for C3 at a concrete input: `bounded_int [5] 2` succeeds with
value `1 ≤ 2`, and `bounded_int [5] 0` returns `0` reading nothing. -/
theorem bounded_int_in_range_witness :
    bounded_int [5] 2 = some (1, []) ∧ 1 ≤ 2 ∧ bounded_int [5] 0 = some (0, [5]) :=
  ⟨by decide, (bounded_int_in_range [5] 2 1 []).1 (by decide),
    (bounded_int_in_range [5] 0 0 []).2⟩

/-- C4: `current_count` starts at `0` (`Repeat::new`), each
`should_continue` call leaves it unchanged or increments it by one (never
decrements or resets), leaves the bounds untouched, and — whatever the
call returns, `true`, `false`, or a draw failure — keeps it at or below
`max_count`. -/
theorem repeat_count_invariant (minc maxc : Nat) (e : F) (r : Repeat) (source : DataSource)
    (h : r.current_count ≤ r.max_count) :
    (Repeat.new minc maxc e).current_count = 0 ∧
    r.current_count ≤ (r.should_continue source).2.1.current_count ∧
    (r.should_continue source).2.1.current_count ≤ r.current_count + 1 ∧
    (r.should_continue source).2.1.min_count = r.min_count ∧
    (r.should_continue source).2.1.max_count = r.max_count ∧
    (r.should_continue source).2.1.current_count ≤ r.max_count := by
  refine ⟨rfl, ?_⟩
  rw [Repeat.should_continue]
  by_cases h1 : r.current_count < r.min_count
  · rw [if_pos h1]
    rcases hd : r.draw_until true source with ⟨u, s⟩
    cases u <;> simp <;> omega
  · rw [if_neg h1]
    by_cases h2 : r.max_count ≤ r.current_count
    · rw [if_pos h2]
      rcases hd : r.draw_until false source with ⟨u, s⟩
      cases u <;> simp <;> omega
    · rw [if_neg h2]
      rcases hw : weighted source r.p_continue with _ | ⟨d, s⟩
      · simp
        omega
      · cases d <;> simp <;> omega

/-- Witness for C4: a controller with bounds `[0, 1]` on a one-read
source. -/
theorem repeat_count_invariant_witness :
    (Repeat.new 0 1 (F.val 1)).current_count ≤ (Repeat.new 0 1 (F.val 1)).max_count ∧
    ((Repeat.new 0 1 (F.val 1)).should_continue [0]).2.1.current_count ≤
      (Repeat.new 0 1 (F.val 1)).max_count :=
  ⟨by decide,
    (repeat_count_invariant 0 1 (F.val 1) (Repeat.new 0 1 (F.val 1)) [0]
      (by decide)).2.2.2.2.2⟩

/-- C5: whenever `should_continue` propagates a draw failure, the
controller's state is exactly what it was before the call (in particular
`current_count` still holds its last successfully incremented value): all
mutations sit on success paths after every fallible read. -/
theorem should_continue_failure_keeps_state (r : Repeat) (source : DataSource)
    (h : (r.should_continue source).1 = none) :
    (r.should_continue source).2.1 = r := by
  rw [Repeat.should_continue] at h ⊢
  by_cases h1 : r.current_count < r.min_count
  · rw [if_pos h1] at h ⊢
    rcases hd : r.draw_until true source with ⟨u, s⟩
    cases u <;> simp_all
  · rw [if_neg h1] at h ⊢
    by_cases h2 : r.max_count ≤ r.current_count
    · rw [if_pos h2] at h ⊢
      rcases hd : r.draw_until false source with ⟨u, s⟩
      cases u <;> simp_all
    · rw [if_neg h2] at h ⊢
      rcases hw : weighted source r.p_continue with _ | ⟨d, s⟩
      · simp
      · simp_all

/-- Witness for C5: a call on an exhausted source fails and leaves the
controller unchanged. -/
theorem should_continue_failure_keeps_state_witness :
    ((Repeat.new 0 1 (F.val 1)).should_continue []).1 = none ∧
    ((Repeat.new 0 1 (F.val 1)).should_continue []).2.1 = Repeat.new 0 1 (F.val 1) :=
  ⟨by decide, should_continue_failure_keeps_state (Repeat.new 0 1 (F.val 1)) [] (by decide)⟩

theorem boundedIntLoopFuel_eq (max bl : Nat) :
    ∀ (source : DataSource) (fuel : Nat), source.length < fuel →
      boundedIntLoopFuel max bl fuel source = some (boundedIntLoop max bl source) := by
  intro source
  induction source with
  | nil =>
      intro fuel hf
      cases fuel with
      | zero => omega
      | succ f => rfl
  | cons v rest ih =>
      intro fuel hf
      cases fuel with
      | zero => omega
      | succ f =>
          rw [boundedIntLoopFuel, boundedIntLoop, bits_cons]
          by_cases hle : v % 2 ^ bl ≤ max
          · simp [hle]
          · simp only [if_neg hle]
            exact ih f (by simpa using Nat.lt_of_succ_lt_succ hf)

theorem drawUntilFuel_eq (r : Repeat) (value : Bool) :
    ∀ (source : DataSource) (fuel : Nat), source.length < fuel →
      drawUntilFuel r.p_continue value fuel source =
        some (Option.map (fun _ => (r.draw_until value source).2)
          (r.draw_until value source).1) := by
  intro source
  induction source with
  | nil =>
      intro fuel hf
      cases fuel with
      | zero => omega
      | succ f => rfl
  | cons v rest ih =>
      intro fuel hf
      cases fuel with
      | zero => omega
      | succ f =>
          rw [drawUntilFuel, Repeat.draw_until, weighted_cons]
          simp only []
          split
          next hd => simp [hd]
          next hd =>
            exact ih f (by simpa using Nat.lt_of_succ_lt_succ hf)

theorem boundedIntLoop_suffix (max bl : Nat) :
    ∀ (source : DataSource) (v : Nat) (s' : DataSource),
      boundedIntLoop max bl source = some (v, s') → s' <:+ source := by
  intro source
  induction source with
  | nil => intro v s' h; simp [boundedIntLoop] at h
  | cons a rest ih =>
      intro v s' h
      rw [boundedIntLoop, bits_cons] at h
      by_cases hle : a % 2 ^ bl ≤ max
      · simp [hle] at h
        exact h.2 ▸ List.suffix_cons a rest
      · simp only [if_neg hle] at h
        exact (ih v s' h).trans (List.suffix_cons a rest)

theorem draw_until_suffix (r : Repeat) (value : Bool) :
    ∀ source : DataSource, (r.draw_until value source).2 <:+ source := by
  intro source
  induction source with
  | nil => exact List.suffix_refl []
  | cons v rest ih =>
      rw [Repeat.draw_until, weighted_cons]
      simp only []
      split
      next hd =>
        simp only []
        exact List.suffix_cons v rest
      next hd =>
        exact ih.trans (List.suffix_cons v rest)

/-- C10: both inner loops terminate on every finite source.  Each
iteration consumes exactly one read (a 64-bit one in `draw_until`), so
within `source.length + 1` iterations the budgeted loops
(`boundedIntLoopFuel`, `drawUntilFuel`) deliver the loop's outcome — a
value or the propagated draw failure — and the cursor only ever advances:
the source left behind is a suffix of the one supplied. -/
theorem loops_terminate (max bl : Nat) (r : Repeat) (value : Bool) (source : DataSource)
    (hmax : 0 < max) :
    boundedIntLoopFuel max bl (source.length + 1) source =
      some (boundedIntLoop max bl source) ∧
    drawUntilFuel r.p_continue value (source.length + 1) source =
      some (Option.map (fun _ => (r.draw_until value source).2)
        (r.draw_until value source).1) ∧
    (∀ v s', boundedIntLoop max bl source = some (v, s') → s' <:+ source) ∧
    (r.draw_until value source).2 <:+ source :=
  ⟨boundedIntLoopFuel_eq max bl source _ (Nat.lt_succ_self _),
    drawUntilFuel_eq r value source _ (Nat.lt_succ_self _),
    fun v s' h => boundedIntLoop_suffix max bl source v s' h,
    draw_until_suffix r value source⟩

/-- Witness for C10: the rejection loop over a one-read source with
`max = 1` and the forced-`false` loop of a `[0, 0]` controller. -/
theorem loops_terminate_witness :
    (0 : Nat) < 1 ∧
    boundedIntLoopFuel 1 1 2 [1] = some (boundedIntLoop 1 1 [1]) ∧
    ((Repeat.new 0 0 (F.val 1)).draw_until false [1]).2 <:+ [1] :=
  ⟨by decide,
    (loops_terminate 1 1 (Repeat.new 0 0 (F.val 1)) false [1] (by decide)).1,
    (loops_terminate 1 1 (Repeat.new 0 0 (F.val 1)) false [1] (by decide)).2.2.2⟩

/-- C6 (counterexample): the claim quantifies over every non-empty weight
vector, but on the non-empty all-zero vector `[0.0, 0.0]` `Sampler::new`
builds no table at all — the NaN scaled probabilities fail the
classification assert. -/
theorem sampler_table_claim_counterexample : Sampler.new [F.val 0, F.val 0] = none := by
  decide

/-- C6 (amended): for every non-empty weight vector on which
`Sampler::new` succeeds (returns a table rather than failing an
assertion), the table's length equals the number of input weights, it is
sorted by `(primary, alternate)` ascending, every entry has
`primary ≤ alternate`, and every entry with `primary = alternate` has
`use_alternate = 0.0`. -/
theorem sampler_table_invariants (weights : List F) (s : Sampler)
    (h : Sampler.new weights = some s) :
    s.table.length = weights.length ∧
    List.Sorted (fun a b => SamplerEntry.le a b = true) s.table ∧
    (∀ e ∈ s.table, e.primary ≤ e.alternate) ∧
    (∀ e ∈ s.table, e.primary = e.alternate → e.use_alternate = F.val 0) := by
  rw [Sampler.new] at h
  by_cases hlen : weights.length = 0
  · rw [if_pos hlen] at h
    exact Option.noConfusion h
  rw [if_neg hlen] at h
  dsimp only [] at h
  split at h
  · exact Option.noConfusion h
  next t0 sm0 lg0 hinit =>
    split at h
    · exact Option.noConfusion h
    next t2 sc2 sm2 lg2 halias =>
      split at h
      · exact Option.noConfusion h
      next htab =>
        obtain rfl := (Option.some.inj h).symm
        have hlen0 := initTables_length _ _ _ _ hinit
        have hlen2 := aliasLoop_length _ _ _ _ _ _ _ _ _ halias
        have hcert0 := initTables_certain _ _ _ _ hinit
        have hcert2 := aliasLoop_certain _ _ _ _ _ _ _ _ _ halias hcert0
        have hcert3 : ∀ e ∈ t2 ++ sm2.map SamplerEntry.single ++ lg2.map SamplerEntry.single,
            e.primary = e.alternate → e.use_alternate = F.val 0 := by
          intro e he
          rcases List.mem_append.1 he with he1 | he1
          · rcases List.mem_append.1 he1 with he2 | he2
            · exact hcert2 e he2
            · obtain ⟨i, _, rfl⟩ := List.mem_map.1 he2
              intro _
              rfl
          · obtain ⟨i, _, rfl⟩ := List.mem_map.1 he1
            intro _
            rfl
        refine ⟨?_, ?_, ?_, ?_⟩
        · have hperm := List.perm_insertionSort
            (fun a b => SamplerEntry.le a b = true)
            ((t2 ++ sm2.map SamplerEntry.single ++ lg2.map SamplerEntry.single).map fun e =>
              if e.alternate < e.primary then
                { primary := e.alternate, alternate := e.primary,
                  use_alternate := F.sub (F.val 1) e.use_alternate }
              else e)
          rw [hperm.length_eq]
          simp only [List.length_map, List.length_append, List.enum_length] at *
          omega
        · exact List.sorted_insertionSort _ _
        · intro e he
          rw [List.mem_insertionSort] at he
          obtain ⟨e0, _, rfl⟩ := List.mem_map.1 he
          by_cases hswap : e0.alternate < e0.primary
          · simp only [if_pos hswap]
            omega
          · simp only [if_neg hswap]
            omega
        · intro e he
          rw [List.mem_insertionSort] at he
          obtain ⟨e0, he0, rfl⟩ := List.mem_map.1 he
          by_cases hswap : e0.alternate < e0.primary
          · simp only [if_pos hswap]
            intro hpa
            omega
          · simp only [if_neg hswap]
            exact hcert3 e0 he0

/-- Witness for C6 (amended) at weights `[1, 2, 3]`: construction succeeds
with the three-row table `[(0, 2, 0.5), (1, 1, 0), (2, 2, 0)]`, whose
length is the number of weights. -/
theorem sampler_table_invariants_witness :
    Sampler.new [F.val 1, F.val 2, F.val 3] =
      some { table := [{ primary := 0, alternate := 2, use_alternate := F.val (1 / 2) },
        { primary := 1, alternate := 1, use_alternate := F.val 0 },
        { primary := 2, alternate := 2, use_alternate := F.val 0 }] } ∧
    ({ table := [{ primary := 0, alternate := 2, use_alternate := F.val (1 / 2) },
        { primary := 1, alternate := 1, use_alternate := F.val 0 },
        { primary := 2, alternate := 2, use_alternate := F.val 0 }] } : Sampler).table.length =
      [F.val 1, F.val 2, F.val 3].length :=
  ⟨by decide, (sampler_table_invariants [F.val 1, F.val 2, F.val 3] _ (by decide)).1⟩

/-- C7 (counterexample): the claim says a single-weight sampler performs
no read beyond the bounded-integer draw.  The bounded-integer draw over
the one-entry table reads nothing (`bounded_int` on `max = 0` leaves the
source untouched), yet `sample` consumes one read — the unconditional
weighted-coin draw — and fails outright on an exhausted source instead of
returning index `0`. -/
theorem sample_single_weight_claim_counterexample :
    Sampler.new [F.val 1] = some { table := [SamplerEntry.single 0] } ∧
    bounded_int [0] 0 = some (0, [0]) ∧
    (Sampler.mk [SamplerEntry.single 0]).sample [0] = some (0, []) ∧
    (Sampler.mk [SamplerEntry.single 0]).sample [] = none := by
  refine ⟨by decide, by decide, by decide, by decide⟩

/-- C7 (amended): for every single positive weight `w`, `Sampler::new([w])`
builds the one-row certain table, and sampling returns index `0` whenever
the source can supply the one 64-bit weighted-coin read (which is always
performed, beyond the read-free bounded-integer draw), failing with a draw
failure on an exhausted source. -/
theorem sample_single_weight (w : ℚ) (hw : 0 < w) (v : Nat) (rest : DataSource) :
    Sampler.new [F.val w] = some { table := [SamplerEntry.single 0] } ∧
    (Sampler.mk [SamplerEntry.single 0]).sample (v :: rest) = some (0, rest) ∧
    (Sampler.mk [SamplerEntry.single 0]).sample [] = none := by
  have hne : w ≠ 0 := ne_of_gt hw
  refine ⟨?_, ?_, by decide⟩
  · rw [Sampler.new]
    simp [F.add, F.mul, F.div, F.beq, initTables, aliasLoop, List.enum, SamplerEntry.single,
      hne, div_self, List.insertionSort, List.orderedInsert]
  · rw [Sampler.sample]
    simp [bounded_int, bitLength_zero, weighted_cons, SamplerEntry.single, truthyOf]

/-- Witness for C7 (amended) at `w = 1` and the one-read source `[7]`. -/
theorem sample_single_weight_witness :
    (0 : ℚ) < 1 ∧
    Sampler.new [F.val 1] = some { table := [SamplerEntry.single 0] } ∧
    (Sampler.mk [SamplerEntry.single 0]).sample [7] = some (0, []) ∧
    (Sampler.mk [SamplerEntry.single 0]).sample [] = none :=
  ⟨by norm_num, sample_single_weight 1 (by norm_num) 7 []⟩

set_option maxRecDepth 200000 in
/-- C8 (counterexample): the claim quantifies over every sampler, but with
64 or more table rows the sampled bit length can reach 64, and the code's
`as i64` cast reinterprets the magnitude as two's complement: on the
64-equal-weight sampler with reads `[63, 0, 2^63, 0]` (index 63, certain
entry, magnitude `2^63`, sign bit 0) the code returns `-2^63` while the
claim's unsigned-magnitude composition returns `+2^63`. -/
theorem integer_claim_counterexample :
    Sampler.new (List.replicate 64 (F.val 1)) =
      some { table := (List.range 64).map SamplerEntry.single } ∧
    integer_from_bitlengths [63, 0, 2 ^ 63, 0]
        { table := (List.range 64).map SamplerEntry.single } =
      some (-(2 ^ 63 : Int), []) ∧
    signedIntegerClaim [63, 0, 2 ^ 63, 0]
        { table := (List.range 64).map SamplerEntry.single } =
      some ((2 ^ 63 : Int), []) := by
  refine ⟨by decide, by decide, by decide⟩

/-- C8 (amended): for every sampler whose table entries name indices below
63 — so the sampled bit length is at most 63, as for the 63-weight
`good_bitlengths` preset — a successful `integer_from_bitlengths` call
equals the claim's composition: sample `b`, read `b + 1` magnitude bits,
read one sign bit, negate exactly when the sign bit is nonzero. -/
theorem integer_matches_claim (s : Sampler) (source : DataSource)
    (h : ∀ e ∈ s.table, e.primary < 63 ∧ e.alternate < 63) :
    integer_from_bitlengths source s = signedIntegerClaim source s := by
  rw [integer_from_bitlengths, signedIntegerClaim]
  cases hs : s.sample source with
  | none => rfl
  | some bs =>
      obtain ⟨b, s1⟩ := bs
      have hb : b < 63 := by
        rw [Sampler.sample] at hs
        by_cases h0 : s.table.length = 0
        · rw [if_pos h0] at hs
          exact Option.noConfusion hs
        rw [if_neg h0] at hs
        cases hbi : bounded_int source (s.table.length - 1) with
        | none => rw [hbi] at hs; exact Option.noConfusion hs
        | some is1 =>
            obtain ⟨i, s1'⟩ := is1
            rw [hbi] at hs
            have hi : i < s.table.length := by
              have := bounded_int_le hbi
              omega
            have hmem : s.table.getD i (SamplerEntry.single 0) ∈ s.table := by
              rw [List.getD_eq_getElem s.table _ hi]
              exact List.getElem_mem hi
            obtain ⟨hp, ha⟩ := h _ hmem
            dsimp only [] at hs
            cases hw : weighted s1' (s.table.getD i (SamplerEntry.single 0)).use_alternate with
            | none => rw [hw] at hs; exact Option.noConfusion hs
            | some ds2 =>
                obtain ⟨d, s2'⟩ := ds2
                rw [hw] at hs
                have heq := Option.some.inj hs
                cases d
                · have hbe : (s.table.getD i (SamplerEntry.single 0)).primary = b := by
                    simpa using congrArg Prod.fst heq
                  omega
                · have hbe : (s.table.getD i (SamplerEntry.single 0)).alternate = b := by
                    simpa using congrArg Prod.fst heq
                  omega
      cases s1 with
      | nil => rfl
      | cons x rest =>
          dsimp only []
          rw [bits_cons]
          have hpow : (2 : Nat) ^ (b + 1) ≤ 2 ^ 63 :=
            Nat.pow_le_pow_right (by norm_num) (by omega)
          have hlt : x % 2 ^ (b + 1) < 2 ^ 63 :=
            lt_of_lt_of_le (Nat.mod_lt _ (Nat.pow_pos (by norm_num))) hpow
          have hm : toI64 (x % 2 ^ (b + 1)) = ((x % 2 ^ (b + 1) : Nat) : Int) := if_pos hlt
          cases rest with
          | nil => rfl
          | cons y rest2 =>
              dsimp only []
              rw [bits_cons]
              dsimp only []
              by_cases hy : y % 2 ^ 1 = 0
              · rw [hm, if_neg (by omega : ¬ 0 < y % 2 ^ 1),
                  if_neg (by omega : ¬ y % 2 ^ 1 ≠ 0)]
              · have hy2 : 0 < y % 2 ^ 1 := Nat.pos_of_ne_zero hy
                have hne : ((x % 2 ^ (b + 1) : Nat) : Int) ≠ -(2 ^ 63) := by
                  omega
                have hneg : negI64 ((x % 2 ^ (b + 1) : Nat) : Int) =
                    -((x % 2 ^ (b + 1) : Nat) : Int) := by
                  rw [negI64, if_neg hne]
                rw [hm, if_pos hy2, if_pos hy, hneg]

set_option maxRecDepth 40000 in
/-- Witness for C8 (amended): the one-row sampler on source `[0, 5, 1]` —
both sides agree, and the draw succeeds with value `-1` (magnitude 1, sign
bit set). -/
theorem integer_matches_claim_witness :
    integer_from_bitlengths [0, 5, 1] (Sampler.mk [SamplerEntry.single 0]) =
      signedIntegerClaim [0, 5, 1] (Sampler.mk [SamplerEntry.single 0]) ∧
    integer_from_bitlengths [0, 5, 1] (Sampler.mk [SamplerEntry.single 0]) =
      some (-1, []) :=
  ⟨integer_matches_claim (Sampler.mk [SamplerEntry.single 0]) [0, 5, 1] (by decide),
    by decide⟩

/-- C9: on the all-zero weight vector (non-empty, non-negative), the zero
total makes the scaled probability `0.0 / 0.0 = NaN`, which fails every
comparison and falls into the branch whose `assert!(scaled < 1.0)` is
false: `Sampler::new` panics instead of building a table (`none` in this
model). -/
theorem sampler_new_all_zero_asserts : Sampler.new [F.val 0] = none := by decide

end Distributions
